import Mathlib

/-!
# Verification of the Connect-4 robot core

A shallow embedding of `src/Robot/robot_brain.py` and `src/Robot/DiceTurn.py`.

* A board is a 10×10 grid of optional player identifiers (strings), modelled
  as a list of rows; reads go through `cell`, which totalises Python's
  in-bounds indexing with `none` out of bounds.
* Python floats are modelled by `ℚ`: every value the evaluation produces is a
  multiple of 1/2, represented exactly by both.
* The search values `-math.inf`/`math.inf` are modelled by `⊥`/`⊤` of
  `WithBot (WithTop ℚ)`.
* `random.choice(pool)` in the dice roller is modelled by an arbitrary index
  into the pool (reduced mod its length), so theorems quantify over every
  possible random outcome.
-/

namespace Connect4

/-! ## Constants (robot_brain.py, lines 8-12) -/

def ROWS : Nat := 10
def COLS : Nat := 10
def CONNECT_N : Nat := 4
def MAX_DEPTH : Nat := 4
def WIN_SCORE : ℚ := 10000

/-! ## Board model -/

/-- `board: List[List[Optional[str]]]`. -/
abbrev Board := List (List (Option String))

/-- `board[r][c]` for in-range indices; `none` when an index is out of range
(Python would raise there, but every read in the source is guarded to be
in range). -/
def cell (b : Board) (r c : Nat) : Option String :=
  (b.getD r []).getD c none

/-- `in_bounds(row, col)` (robot_brain.py line 228). -/
def in_bounds (r c : Int) : Bool :=
  decide (0 ≤ r) && decide (r < (ROWS : Int)) && decide (0 ≤ c) && decide (c < (COLS : Int))

/-- Board read at `Int` coordinates: the value Python reads after an
`in_bounds` guard, `none` out of bounds. -/
def cellI (b : Board) (r c : Int) : Option String :=
  if in_bounds r c then cell b r.toNat c.toNat else none

/-- A proper 10×10 grid, as every board the program builds is. -/
def board_wf (b : Board) : Prop :=
  b.length = ROWS ∧ ∀ row ∈ b, row.length = COLS

instance board_wf_decidable (b : Board) : Decidable (board_wf b) := by
  unfold board_wf
  infer_instance

/-- The scan of `find_drop_row` (robot_brain.py lines 209-214): try rows
`n-1, n-2, ..., 0` in that order and return the first empty one. -/
def find_drop_row_aux (b : Board) (c : Nat) : Nat → Option Nat
  | 0 => none
  | n + 1 => if cell b n c = none then some n else find_drop_row_aux b c n

/-- `find_drop_row(board, col)`: the lowest open row index for this column
(scanning rows 9 down to 0), or `none` if the column is full. -/
def find_drop_row (b : Board) (c : Nat) : Option Nat :=
  find_drop_row_aux b c ROWS

/-- `board_is_full(board)` (robot_brain.py lines 217-218). -/
def board_is_full (b : Board) : Bool :=
  (List.range COLS).all fun c => (cell b 0 c).isSome

/-- `place_disc(board, row, col, player)` (robot_brain.py lines 221-225):
copy the board and place a disc at `(row, col)`. The Python copies row
lists precisely so the input is untouched; here boards are values. -/
def place_disc (b : Board) (row col : Nat) (player : String) : Board :=
  b.set row ((b.getD row []).set col (some player))

/-- `[c for c in range(COLS) if find_drop_row(board, c) is not None]`. -/
def valid_columns (b : Board) : List Nat :=
  (List.range COLS).filter fun c => (find_drop_row b c).isSome

/-- The four scan directions (robot_brain.py lines 147-152 and 238-243):
horizontal, vertical, diagonal down-right, diagonal up-right. -/
def directions : List (Int × Int) := [(0, 1), (1, 0), (1, 1), (-1, 1)]

/-! ## Win detection -/

/-- One `while` loop of `check_win` (robot_brain.py lines 247-258): the number
of consecutive cells equal to `some p` strictly after `(r, c)` in direction
`(dr, dc)`, stopping at the first mismatch or out-of-bounds cell (`cellI` is
`none` out of bounds, so the bounds check is folded into the comparison).
`fuel` only bounds the walk; any `fuel ≥ 10` is exact on the 10×10 grid. -/
def count_dir (b : Board) (p : String) : Nat → Int → Int → Int → Int → Nat
  | 0, _, _, _, _ => 0
  | fuel + 1, r, c, dr, dc =>
    if cellI b (r + dr) (c + dc) = some p then
      1 + count_dir b p fuel (r + dr) (c + dc) dr dc
    else 0

/-- `check_win(board, row, col, connect_n)` (robot_brain.py lines 232-261):
does the disc at `(row, col)` complete a line of length `connect_n`?
`false` when the cell is empty. -/
def check_win (b : Board) (row col : Nat) (connect_n : Nat) : Bool :=
  match cell b row col with
  | none => false
  | some p =>
    directions.any fun d =>
      decide (connect_n ≤
        1 + count_dir b p 20 row col d.1 d.2 + count_dir b p 20 row col (-d.1) (-d.2))

/-- The claim's notion of a winning line: a contiguous run of cells owned by
`p` along direction `(dr, dc)` that passes through `(row, col)`, reaching
`a` cells backwards and `k` cells forwards, of total length `a + 1 + k ≥ n`.
`cellI` is `none` off the grid, so every cell of the run is on the grid. -/
def has_run (b : Board) (p : String) (row col : Nat) (dr dc : Int) (n : Nat) : Prop :=
  ∃ a k : Nat, n ≤ a + 1 + k ∧
    (∀ i : Nat, i ≤ a → cellI b ((row : Int) - i * dr) ((col : Int) - i * dc) = some p) ∧
    (∀ j : Nat, j ≤ k → cellI b ((row : Int) + j * dr) ((col : Int) + j * dc) = some p)

/-! ## Evaluation heuristic -/

/-- `sum(1 for cell in window if cell == bot_id)` (robot_brain.py line 169). -/
def bot_count (w : List (Option String)) (bot : String) : Nat :=
  (w.filter fun x => decide (x = some bot)).length

/-- `sum(1 for cell in window if cell in opponents)` (robot_brain.py line
170); `None in opponents` is false since opponents are strings. -/
def opp_count (w : List (Option String)) (opps : List String) : Nat :=
  (w.filter fun x => x.any fun p => opps.contains p).length

/-- `window.count(None)` (robot_brain.py line 171). -/
def empty_count (w : List (Option String)) : Nat :=
  (w.filter fun x => decide (x = none)).length

/-- `score_window(window, bot_id, opponents)` (robot_brain.py lines 168-193):
the two trailing `if`/`elif` chains of the source are independent additive
contributions. -/
def score_window (w : List (Option String)) (bot : String) (opps : List String) : ℚ :=
  if 0 < bot_count w bot ∧ 0 < opp_count w opps then 0
  else if bot_count w bot = CONNECT_N then WIN_SCORE
  else if opp_count w opps = CONNECT_N then -WIN_SCORE
  else
    (if bot_count w bot = 3 ∧ empty_count w = 1 then (50 : ℚ)
     else if bot_count w bot = 2 ∧ empty_count w = 2 then 10
     else if bot_count w bot = 1 ∧ empty_count w = 3 then 2
     else 0) +
    (if opp_count w opps = 3 ∧ empty_count w = 1 then (-60 : ℚ)
     else if opp_count w opps = 2 ∧ empty_count w = 2 then -8
     else 0)

/-- The window table exactly as the claim words it: a single priority list of
cases — contested, all four bot, all four opponent, then the graded table,
and 0 otherwise. -/
def score_window_spec (w : List (Option String)) (bot : String) (opps : List String) : ℚ :=
  if 0 < bot_count w bot ∧ 0 < opp_count w opps then 0
  else if w.all fun x => decide (x = some bot) then WIN_SCORE
  else if w.all fun x => x.any fun p => opps.contains p then -WIN_SCORE
  else if bot_count w bot = 3 ∧ empty_count w = 1 then 50
  else if bot_count w bot = 2 ∧ empty_count w = 2 then 10
  else if bot_count w bot = 1 ∧ empty_count w = 3 then 2
  else if opp_count w opps = 3 ∧ empty_count w = 1 then -60
  else if opp_count w opps = 2 ∧ empty_count w = 2 then -8
  else 0

/-- The window of `CONNECT_N` cells read at `(r, c)` in direction `(dr, dc)`
(robot_brain.py lines 159-162). -/
def window_at (b : Board) (r c : Nat) (dr dc : Int) : List (Option String) :=
  (List.range CONNECT_N).map fun (k : Nat) => cellI b (r + (k : Int) * dr) (c + (k : Int) * dc)

/-- Every window the triple loop of `evaluate_board` visits (lines 154-163),
in visit order: a start cell and a direction qualify when the far end
`(row + 3*dr, col + 3*dc)` is in bounds. -/
def window_list (b : Board) : List (List (Option String)) :=
  (List.range ROWS).flatMap fun r =>
    (List.range COLS).flatMap fun c =>
      directions.filterMap fun d =>
        if in_bounds (r + ((CONNECT_N : Int) - 1) * d.1) (c + ((CONNECT_N : Int) - 1) * d.2)
        then some (window_at b r c d.1 d.2)
        else none

/-- Bot discs in the centre column `COLS // 2` (robot_brain.py line 143). -/
def center_count (b : Board) (bot : String) : Nat :=
  ((List.range ROWS).filter fun r => decide (cell b r (COLS / 2) = some bot)).length

/-- `evaluate_board(board, bot_id, opponents)` (robot_brain.py lines 137-165):
the centre-column bonus of 2.5 per bot disc plus the sum of all window
scores. -/
def evaluate_board (b : Board) (bot : String) (opps : List String) : ℚ :=
  (center_count b bot : ℚ) * (5 / 2) +
    ((window_list b).map fun w => score_window w bot opps).sum

/-- `infer_opponents(board, bot_id)` (robot_brain.py lines 196-206). Python
collects the ids into a `set` whose iteration order is unspecified; the
model keeps first occurrences in row-major order, one representative of the
allowed orders (no claim below depends on this order). -/
def infer_opponents (b : Board) (bot : String) : List String :=
  let ids := (b.flatten.reduceOption.filter fun p => decide (p ≠ bot)).dedup
  if ids = [] then ["P1", "P2"] else ids

/-! ## Search values: floats with ±infinity -/

/-- The score type of the search: a rational, `-math.inf` (`⊥`) or
`math.inf` (`⊤`). -/
abbrev EScore := WithBot (WithTop ℚ)

/-- A finite score. -/
def ofQ (q : ℚ) : EScore := ((q : WithTop ℚ) : WithBot (WithTop ℚ))

/-! ## Minimax with alpha-beta pruning -/

/-- The terminal test at the head of `minimax` (robot_brain.py lines 92-97):
if the disc just placed at `last_move` completes a line, the bot's win
scores `WIN_SCORE + depth` (prefer faster wins) and anyone else's
`-WIN_SCORE - depth` (prefer slower losses). -/
def terminal_score (b : Board) (bot : String) (depth : Nat) :
    Option (Nat × Nat) → Option EScore
  | none => none
  | some (r, c) =>
    if check_win b r c CONNECT_N then
      some (if cell b r c = some bot then ofQ (WIN_SCORE + depth) else ofQ (-WIN_SCORE - depth))
    else none

/-- The maximizing loop of `minimax` (robot_brain.py lines 106-117).
`f c α` is the recursive call for column `c` at the current alpha; the fold
carries `(α, value)` and stops once `β ≤ α` after an update. -/
def max_loop (f : Nat → EScore → EScore) (β : EScore) :
    List Nat → EScore → EScore → EScore
  | [], _, value => value
  | c :: rest, α, value =>
    let s := f c α
    let value2 := max value s
    let α2 := max α value2
    if β ≤ α2 then value2 else max_loop f β rest α2 value2

/-- The inner opponent loop of the minimizing layer (robot_brain.py lines
124-131). `g c o β` is the recursive call for column `c`, opponent `o`, at
the current beta; returns the final `(value, β)` so the column loop can test
the shared cutoff. -/
def min_inner (g : Nat → String → EScore → EScore) (α : EScore) (c : Nat) :
    List String → EScore → EScore → EScore × EScore
  | [], β, value => (value, β)
  | o :: rest, β, value =>
    let s := g c o β
    let value2 := if s < value then s else value
    let β2 := min β value2
    if β2 ≤ α then (value2, β2) else min_inner g α c rest β2 value2

/-- The outer column loop of the minimizing layer (robot_brain.py lines
120-134): after each column's opponent loop the same `β ≤ α` cutoff breaks
the column loop too. -/
def min_loop (g : Nat → String → EScore → EScore) (α : EScore) (os : List String) :
    List Nat → EScore → EScore → EScore
  | [], _, value => value
  | c :: rest, β, value =>
    let r := min_inner g α c os β value
    if r.2 ≤ α then r.1 else min_loop g α os rest r.2 r.1

/-- The board after the bot or an opponent hypothetically drops in column `c`
(the `assert row is not None` in the source guarantees the `getD 0` default
is never taken on a valid column). -/
def drop_of (b : Board) (c : Nat) : Nat := (find_drop_row b c).getD 0

/-- `place_disc(board, find_drop_row(board, c), c, player)`. -/
def child_board (b : Board) (c : Nat) (player : String) : Board :=
  place_disc b (drop_of b c) c player

/-- `minimax(board, depth, maximizing, bot_id, opponents, alpha, beta,
last_move)` (robot_brain.py lines 78-134), minus the node counter, which
never influences the returned score. Depth is a natural number, as in every
call the program makes. -/
def minimax : Nat → Board → Bool → String → List String → EScore → EScore →
    Option (Nat × Nat) → EScore
  | 0, b, _, bot, opps, _, _, last =>
    match terminal_score b bot 0 last with
    | some v => v
    | none => ofQ (evaluate_board b bot opps)
  | d + 1, b, maximizing, bot, opps, α, β, last =>
    match terminal_score b bot (d + 1) last with
    | some v => v
    | none =>
      if board_is_full b then ofQ (evaluate_board b bot opps)
      else if valid_columns b = [] then ofQ (evaluate_board b bot opps)
      else if maximizing then
        max_loop
          (fun c α' =>
            minimax d (child_board b c bot) false bot opps α' β (some (drop_of b c, c)))
          β (valid_columns b) α ⊥
      else
        min_loop
          (fun c o β' =>
            minimax d (child_board b c o) true bot opps α β' (some (drop_of b c, c)))
          α opps (valid_columns b) β ⊤

/-- The nested minimizing loops flattened into one pass over column-opponent
pairs (proof device: for a window entered with `α < β` it traverses exactly
the pairs the nested loops traverse, because the shared `β ≤ α` cutoff
breaks both loops at the same pair). -/
def flat_min_loop (g : Nat → String → EScore → EScore) (α : EScore) :
    List (Nat × String) → EScore → EScore → EScore
  | [], _, value => value
  | p :: rest, β, value =>
    let s := g p.1 p.2 β
    let value2 := if s < value then s else value
    let β2 := min β value2
    if β2 ≤ α then value2 else flat_min_loop g α rest β2 value2

/-- The Knuth-Moore relation between a value `v` an alpha-beta search
returns under window `(α, β)` and the exact value `w` of the same node:
a fail-low `v` bounds `w` from above, a fail-high `v` bounds it from below,
and a `v` strictly inside the window is exact. -/
def ABapprox (v w α β : EScore) : Prop :=
  (v ≤ α → w ≤ v) ∧ (β ≤ v → v ≤ w) ∧ (α < v → v < β → v = w)

/-! ## The unpruned reference search (modelled from the spec) -/

/-- Modelled from the spec: an unpruned maximizing layer takes the maximum
over every child, starting from `-inf`. -/
def fold_max (f : Nat → EScore) (cs : List Nat) : EScore :=
  cs.foldl (fun v c => max v (f c)) ⊥

/-- Column-opponent pairs in the order the nested minimizing loops visit
them: columns outer, opponents inner. -/
def pair_list (cs : List Nat) (os : List String) : List (Nat × String) :=
  cs.flatMap fun c => os.map fun o => (c, o)

/-- Modelled from the spec: an unpruned minimizing layer takes the minimum
over every column-opponent child, starting from `inf`. -/
def fold_min (g : Nat → String → EScore) (cs : List Nat) (os : List String) : EScore :=
  (pair_list cs os).foldl (fun v p => min v (g p.1 p.2)) ⊤

/-- Modelled from the spec ("an unpruned full search at the same depth"):
`minimax` over the same game tree with the pruning — the alpha-beta window
and both breaks — removed. -/
def minimax_full : Nat → Board → Bool → String → List String →
    Option (Nat × Nat) → EScore
  | 0, b, _, bot, opps, last =>
    match terminal_score b bot 0 last with
    | some v => v
    | none => ofQ (evaluate_board b bot opps)
  | d + 1, b, maximizing, bot, opps, last =>
    match terminal_score b bot (d + 1) last with
    | some v => v
    | none =>
      if board_is_full b then ofQ (evaluate_board b bot opps)
      else if valid_columns b = [] then ofQ (evaluate_board b bot opps)
      else if maximizing then
        fold_max
          (fun c => minimax_full d (child_board b c bot) false bot opps (some (drop_of b c, c)))
          (valid_columns b)
      else
        fold_min
          (fun c o => minimax_full d (child_board b c o) true bot opps (some (drop_of b c, c)))
          (valid_columns b) opps

/-! ## Top-level move choice -/

/-- `opponents = list(opponent_ids) if opponent_ids else
infer_opponents(board, bot_id)` (robot_brain.py line 35): an empty list is
falsy in Python, so it also falls back to inference. -/
def resolve_opponents (b : Board) (bot : String) (opp_ids : List String) : List String :=
  if opp_ids = [] then infer_opponents b bot else opp_ids

/-- The score of the bot's hypothetical drop in column `c`, searched with a
fresh full window `(-inf, inf)` (robot_brain.py lines 48-58). -/
def top_score (b : Board) (bot : String) (opps : List String) (depth : Nat) (c : Nat) :
    EScore :=
  minimax (depth - 1) (child_board b c bot) false bot opps ⊥ ⊤ (some (drop_of b c, c))

/-- The best-move loop of `choose_best_move` (robot_brain.py lines 43-62):
`S c` is the column's search score and `R c` its drop row; a strictly
greater score replaces the incumbent, so ties keep the first-seen column. -/
def best_loop (S : Nat → EScore) (R : Nat → Nat) :
    List Nat → EScore → Option (Nat × Nat) → EScore × Option (Nat × Nat)
  | [], best, move => (best, move)
  | c :: rest, best, move =>
    if best < S c then best_loop S R rest (S c) (some (R c, c))
    else best_loop S R rest best move

/-- `choose_best_move(board, bot_id, opponent_ids, depth)` (robot_brain.py
lines 25-75), reduced to the data the claims are about: `some (column, row,
score)`, or `none` where Python raises (`ValueError` on a full board,
`RuntimeError` if no column was ever selected). The depth echo, node count
and wall-clock time are diagnostics that do not feed back into the choice. -/
def choose_best_move (b : Board) (bot : String) (opp_ids : List String) (depth : Nat) :
    Option (Nat × Nat × EScore) :=
  let opponents := resolve_opponents b bot opp_ids
  if valid_columns b = [] then none
  else
    match best_loop (top_score b bot opponents depth) (drop_of b) (valid_columns b) ⊥ none with
    | (_, none) => none
    | (best, some (r, c)) => some (c, r, best)

/-- Modelled from the spec: `choose_best_move` against the unpruned search,
the comparison point of the alpha-beta equivalence property. -/
def top_score_full (b : Board) (bot : String) (opps : List String) (depth : Nat)
    (c : Nat) : EScore :=
  minimax_full (depth - 1) (child_board b c bot) false bot opps (some (drop_of b c, c))

/-- Modelled from the spec: the unpruned top-level search. -/
def choose_best_move_full (b : Board) (bot : String) (opp_ids : List String)
    (depth : Nat) : Option (Nat × Nat × EScore) :=
  let opponents := resolve_opponents b bot opp_ids
  if valid_columns b = [] then none
  else
    match best_loop (top_score_full b bot opponents depth) (drop_of b) (valid_columns b)
        ⊥ none with
    | (_, none) => none
    | (best, some (r, c)) => some (c, r, best)

/-- The exact value of a maximizing node over children `fs`, folded the way
the unpruned loop accumulates it. -/
def fold_from_max (fs : Nat → EScore) (cs : List Nat) (a : EScore) : EScore :=
  cs.foldl (fun v c => max v (fs c)) a

/-- The exact value of a minimizing node over pair children `gs`, folded the
way the unpruned loop accumulates it. -/
def fold_from_min (gs : Nat → String → EScore) (ps : List (Nat × String)) (a : EScore) :
    EScore :=
  ps.foldl (fun v q => min v (gs q.1 q.2)) a

/-! ## Concrete boards for counterexamples and witnesses -/

/-- The empty 10×10 board. -/
def empty_board : Board := List.replicate 10 (List.replicate 10 none)

/-- A board whose column 0 has an occupied topmost cell above nine empty
cells (unreachable by gravity, but `find_drop_row` is claimed "for all
boards"). -/
def c3_board : Board :=
  (List.replicate 10 (none : Option String)).set 0 (some "X") :: List.replicate 9 (List.replicate 10 none)

/-- A board holding one "A" disc on the centre column and one "B" disc in
the corner — its non-empty cells use exactly the two identifiers A and B. -/
def c5_board : Board :=
  List.replicate 9 (List.replicate 10 none) ++
    [[some "B", none, none, none, none, some "A", none, none, none, none]]

/-- A board with a vertical line of four "B" discs in column 3, rows 6-9. -/
def c6_board : Board :=
  List.replicate 6 (List.replicate 10 none) ++
    List.replicate 4 ((List.replicate 10 (none : Option String)).set 3 (some "B"))

/-- A row whose column 0 holds `x` and whose other nine cells are full. -/
def c2_row (x : Option String) (fill : String) : List (Option String) :=
  x :: List.replicate 9 (some fill)

/-- A board where only column 0 is playable and the bot ("B") completes a
vertical four there by dropping at row 6. -/
def c2_board : Board :=
  [c2_row none "X", c2_row none "Y", c2_row none "X", c2_row none "Y", c2_row none "X",
   c2_row none "Y", c2_row none "X", c2_row (some "B") "Y", c2_row (some "B") "X",
   c2_row (some "B") "Y"]

end Connect4

namespace DiceTurn

/-- `TurnState` (DiceTurn.py lines 15-19). -/
structure TurnState where
  last_player : Option String
  consecutive_count : Nat
  skip_next : Option String
deriving DecidableEq, Repr

/-- The dictionary `roll_next_turn` returns (DiceTurn.py lines 58-63). -/
structure RollResult where
  player : String
  skip_next : Option String
  forced_skip : Bool
  next_roll_pool : List String
deriving DecidableEq, Repr

/-- The eligible pool with the fatigue fallback (DiceTurn.py lines 34-37):
`players` minus the skipped player; everyone when that empties the pool. -/
def roll_pool (players : List String) (skip : Option String) : List String :=
  let pool := match skip with
    | none => players
    | some s => players.filter fun p => decide (p ≠ s)
  if pool = [] then players else pool

/-- `roll_next_turn(players, state)` (DiceTurn.py lines 22-63). `none` models
the `ValueError` on an empty player list. `random.choice(pool)` is modelled
by the index `i % pool.length` into the pool, quantifying over every
outcome the uniform roll can produce. Returns the result dictionary and the
mutated state. -/
def roll_next_turn (players : List String) (s : TurnState) (i : Nat) :
    Option (RollResult × TurnState) :=
  if players = [] then none
  else
    let pool := roll_pool players s.skip_next
    let chosen := pool.getD (i % pool.length) ""
    let cnt := if some chosen = s.last_player then s.consecutive_count + 1 else 1
    let forced := decide (2 ≤ cnt)
    let skip2 := if 2 ≤ cnt then some chosen else none
    let cnt2 := if 2 ≤ cnt then 0 else cnt
    let next_pool := match skip2 with
      | none => players
      | some s2 => players.filter fun p => decide (p ≠ s2)
    some ({ player := chosen, skip_next := skip2, forced_skip := forced,
            next_roll_pool := next_pool },
          { last_player := some chosen, consecutive_count := cnt2, skip_next := skip2 })

end DiceTurn

/-! # Theorems -/

namespace Connect4

/-! ## C3: find_drop_row -/

theorem find_drop_row_aux_eq_none (b : Board) (c : Nat) :
    ∀ n, (find_drop_row_aux b c n = none ↔ ∀ r, r < n → cell b r c ≠ none) := by
  intro n
  induction n with
  | zero => simp [find_drop_row_aux]
  | succ n ih =>
    unfold find_drop_row_aux
    by_cases h : cell b n c = none
    · simp only [h, if_pos rfl]
      constructor
      · intro hcon
        exact absurd hcon (by simp)
      · intro hall
        exact absurd h (hall n (Nat.lt_succ_self n))
    · rw [if_neg h, ih]
      constructor
      · intro hall r hr
        rcases Nat.lt_succ_iff_lt_or_eq.mp hr with hr' | rfl
        · exact hall r hr'
        · exact h
      · intro hall r hr
        exact hall r (Nat.lt_succ_of_lt hr)

theorem find_drop_row_aux_eq_some (b : Board) (c : Nat) :
    ∀ n r, find_drop_row_aux b c n = some r →
      r < n ∧ cell b r c = none ∧ ∀ r', r < r' → r' < n → cell b r' c ≠ none := by
  intro n
  induction n with
  | zero => intro r h; simp [find_drop_row_aux] at h
  | succ n ih =>
    intro r h
    unfold find_drop_row_aux at h
    by_cases hc : cell b n c = none
    · rw [if_pos hc] at h
      obtain rfl : n = r := Option.some_injective _ h
      exact ⟨Nat.lt_succ_self _, hc, fun r' h1 h2 => absurd h2 (by omega)⟩
    · rw [if_neg hc] at h
      obtain ⟨h1, h2, h3⟩ := ih r h
      refine ⟨Nat.lt_succ_of_lt h1, h2, fun r' hr1 hr2 => ?_⟩
      rcases Nat.lt_succ_iff_lt_or_eq.mp hr2 with hr' | rfl
      · exact h3 r' hr1 hr'
      · exact hc

/-- C3, corrected. `find_drop_row` returns the highest-numbered empty row of
the column: a returned row is empty and every row strictly below it is
occupied. It returns `none` iff every one of the ten cells of the column is
occupied — not iff the topmost cell is occupied, which is equivalent only
for boards satisfying the gravity invariant (see `claim_C3_cex`). -/
theorem claim_C3 (b : Board) (c : Nat) (hc : c < COLS) :
    (∀ r, find_drop_row b c = some r →
      r < ROWS ∧ cell b r c = none ∧ ∀ r', r < r' → r' < ROWS → cell b r' c ≠ none) ∧
    (find_drop_row b c = none ↔ ∀ r, r < ROWS → cell b r c ≠ none) :=
  ⟨fun r h => find_drop_row_aux_eq_some b c ROWS r h, find_drop_row_aux_eq_none b c ROWS⟩

/-- C3 counterexample: on a (non-gravity) board whose column 0 has an
occupied topmost cell above nine empty cells, `find_drop_row` returns row 9,
so "returns none iff the topmost cell of that column is occupied" is false
as a statement about all boards. -/
theorem claim_C3_cex :
    find_drop_row c3_board 0 = some 9 ∧ (cell c3_board 0 0).isSome = true ∧
      ¬((find_drop_row c3_board 0 = none) ↔ (cell c3_board 0 0).isSome = true) := by
  decide

theorem claim_C3_witness : cell empty_board 9 0 = none :=
  ((claim_C3 empty_board 0 (by decide)).1 9 (by decide)).2.1

/-! ## C7: place_disc -/

/-- C7. `place_disc` writes `player` at the target cell and every other cell
of the produced board equals the same cell of the input board. The input
board itself is a value the call cannot change, which is the model of the
"never mutates its input" clause: the search reads the parent board again
after building each child. -/
theorem claim_C7 (b : Board) (row col : Nat) (p : String)
    (hwf : board_wf b) (hr : row < ROWS) (hc : col < COLS) :
    cell (place_disc b row col p) row col = some p ∧
    ∀ r c, r ≠ row ∨ c ≠ col → cell (place_disc b row col p) r c = cell b r c := by
  obtain ⟨hlen, hrows⟩ := hwf
  have hrb : row < b.length := by rw [hlen]; exact hr
  have hcl : col < ((b[row]?).getD []).length := by
    rw [List.getElem?_eq_getElem hrb, Option.getD_some, hrows b[row] (List.getElem_mem hrb)]
    exact hc
  constructor
  · simp only [cell, place_disc, List.getD_eq_getElem?_getD]
    rw [List.getElem?_set_self (by simpa using hrb), Option.getD_some,
      List.getElem?_set_self hcl]
    rfl
  · intro r c hne
    simp only [cell, place_disc, List.getD_eq_getElem?_getD]
    by_cases hrr : r = row
    · subst hrr
      have hcc : c ≠ col := by
        rcases hne with h | h
        · exact absurd rfl h
        · exact h
      rw [List.getElem?_set_self (by simpa using hrb), Option.getD_some,
        List.getElem?_set_ne (fun hcon => hcc hcon.symm),
        List.getElem?_eq_getElem hrb, Option.getD_some]
    · rw [List.getElem?_set_ne (fun hcon => hrr hcon.symm)]

theorem claim_C7_witness :
    cell (place_disc empty_board 9 5 "B") 9 5 = some "B" ∧
    ∀ r c, r ≠ 9 ∨ c ≠ 5 →
      cell (place_disc empty_board 9 5 "B") r c = cell empty_board r c :=
  claim_C7 empty_board 9 5 "B" (by decide) (by decide) (by decide)

/-! ## C6: check_win -/

theorem in_bounds_iff (r c : Int) :
    in_bounds r c = true ↔ 0 ≤ r ∧ r < 10 ∧ 0 ≤ c ∧ c < 10 := by
  simp [in_bounds, ROWS, COLS, and_assoc]

theorem cellI_eq_some_in_bounds {b : Board} {p : String} {r c : Int}
    (h : cellI b r c = some p) : in_bounds r c = true := by
  by_cases hin : in_bounds r c
  · exact hin
  · rw [cellI, if_neg hin] at h
    exact absurd h (by simp)

theorem cellI_natCast (b : Board) (row col : Nat) (hr : row < ROWS) (hc : col < COLS) :
    cellI b (row : Int) (col : Int) = cell b row col := by
  have hr10 : row < 10 := by simpa [ROWS] using hr
  have hc10 : col < 10 := by simpa [COLS] using hc
  have hin : in_bounds (row : Int) (col : Int) = true := by
    rw [in_bounds_iff]
    refine ⟨by positivity, by exact_mod_cast hr10, by positivity, by exact_mod_cast hc10⟩
  rw [cellI, if_pos hin]
  simp

theorem count_dir_sound (b : Board) (p : String) (dr dc : Int) :
    ∀ (fuel : Nat) (r c : Int) (j : Nat), 1 ≤ j → j ≤ count_dir b p fuel r c dr dc →
      cellI b (r + j * dr) (c + j * dc) = some p := by
  intro fuel
  induction fuel with
  | zero =>
    intro r c j h1 h2
    rw [count_dir] at h2
    omega
  | succ n ih =>
    intro r c j h1 h2
    rw [count_dir] at h2
    by_cases hcl : cellI b (r + dr) (c + dc) = some p
    · rw [if_pos hcl] at h2
      rcases Nat.eq_or_lt_of_le h1 with h1' | h1'
      · rw [← h1']
        simpa using hcl
      · have hrec := ih (r + dr) (c + dc) (j - 1) (by omega) (by omega)
        have hcast : ((j - 1 : ℕ) : ℤ) = (j : ℤ) - 1 := by omega
        rw [hcast] at hrec
        convert hrec using 2 <;> ring
    · rw [if_neg hcl] at h2
      omega

theorem count_dir_max (b : Board) (p : String) (dr dc : Int) :
    ∀ (fuel : Nat) (r c : Int) (m : Nat), m ≤ fuel →
      (∀ j : Nat, 1 ≤ j → j ≤ m → cellI b (r + j * dr) (c + j * dc) = some p) →
      m ≤ count_dir b p fuel r c dr dc := by
  intro fuel
  induction fuel with
  | zero =>
    intro r c m hm _
    omega
  | succ n ih =>
    intro r c m hm hall
    rcases Nat.eq_zero_or_pos m with rfl | hpos
    · omega
    · have h1 : cellI b (r + dr) (c + dc) = some p := by
        have hcl := hall 1 le_rfl hpos
        simpa using hcl
      rw [count_dir, if_pos h1]
      have hrec : m - 1 ≤ count_dir b p n (r + dr) (c + dc) dr dc := by
        refine ih (r + dr) (c + dc) (m - 1) (by omega) fun j hj1 hjm => ?_
        have hcl := hall (j + 1) (by omega) (by omega)
        have hcast : ((j + 1 : ℕ) : ℤ) = (j : ℤ) + 1 := by omega
        rw [hcast] at hcl
        convert hcl using 2 <;> ring
      omega

/-- C6. `check_win` with the default `connectN = 4` is false at an empty
cell, and true exactly when a contiguous run of at least four cells owned by
the cell's player passes through the cell along one of the four axes —
counting both directions and stopping at the first mismatching or
off-board cell (`has_run`'s cells are all on the board since `cellI` is
`none` outside it). -/
theorem claim_C6 (b : Board) (row col : Nat) (hr : row < ROWS) (hc : col < COLS) :
    check_win b row col CONNECT_N = true ↔
      ∃ p, cell b row col = some p ∧
        ∃ d ∈ directions, has_run b p row col d.1 d.2 CONNECT_N := by
  have hr10 : row < 10 := by simpa [ROWS] using hr
  have hc10 : col < 10 := by simpa [COLS] using hc
  constructor
  · intro hwin
    unfold check_win at hwin
    rcases hcell : cell b row col with _ | p
    · rw [hcell] at hwin
      exact absurd hwin (by simp)
    · rw [hcell] at hwin
      simp only [List.any_eq_true, decide_eq_true_eq] at hwin
      obtain ⟨d, hd, hcount⟩ := hwin
      refine ⟨p, rfl, d, hd,
        count_dir b p 20 row col (-d.1) (-d.2), count_dir b p 20 row col d.1 d.2,
        by omega, ?_, ?_⟩
      · intro i hi
        rcases Nat.eq_zero_or_pos i with rfl | hipos
        · simpa using cellI_natCast b row col hr hc ▸ hcell
        · have hcl := count_dir_sound b p (-d.1) (-d.2) 20 row col i hipos hi
          convert hcl using 2 <;> ring
      · intro j hj
        rcases Nat.eq_zero_or_pos j with rfl | hjpos
        · simpa using cellI_natCast b row col hr hc ▸ hcell
        · exact count_dir_sound b p d.1 d.2 20 row col j hjpos hj
  · rintro ⟨p, hcell, d, hd, a, k, hlen, hback, hfwd⟩
    unfold check_win
    rw [hcell]
    simp only [List.any_eq_true, decide_eq_true_eq]
    refine ⟨d, hd, ?_⟩
    have hkin := cellI_eq_some_in_bounds (hfwd k le_rfl)
    have hain := cellI_eq_some_in_bounds (hback a le_rfl)
    rw [in_bounds_iff] at hkin hain
    have hbounds : k ≤ 20 ∧ a ≤ 20 := by
      obtain ⟨dr, dc⟩ := d
      simp only [directions, List.mem_cons, List.not_mem_nil, or_false] at hd
      rcases hd with h | h | h | h <;>
        (obtain ⟨rfl, rfl⟩ : dr = _ ∧ dc = _ := by
          exact ⟨congrArg Prod.fst h, congrArg Prod.snd h⟩) <;>
        simp only at hkin hain <;> omega
    have hf : k ≤ count_dir b p 20 row col d.1 d.2 :=
      count_dir_max b p d.1 d.2 20 row col k hbounds.1 fun j _ hj => hfwd j hj
    have hback2 : a ≤ count_dir b p 20 row col (-d.1) (-d.2) := by
      refine count_dir_max b p (-d.1) (-d.2) 20 row col a hbounds.2 fun i _ hi => ?_
      have hcl := hback i hi
      convert hcl using 2 <;> ring
    omega

theorem claim_C6_witness :
    check_win c6_board 7 3 CONNECT_N = true ↔
      ∃ p, cell c6_board 7 3 = some p ∧
        ∃ d ∈ directions, has_run c6_board p 7 3 d.1 d.2 CONNECT_N :=
  claim_C6 c6_board 7 3 (by decide) (by decide)

/-! ## C4, C10: the window score table; C5: the claimed antisymmetry -/

theorem bot_count_le_length (w : List (Option String)) (bot : String) :
    bot_count w bot ≤ w.length :=
  List.length_filter_le _ w

theorem opp_count_le_length (w : List (Option String)) (opps : List String) :
    opp_count w opps ≤ w.length :=
  List.length_filter_le _ w

theorem all_bot_iff_count (w : List (Option String)) (bot : String) (hlen : w.length = CONNECT_N) :
    (w.all fun x => decide (x = some bot)) = true ↔ bot_count w bot = CONNECT_N := by
  rw [List.all_eq_true, bot_count, ← hlen, List.filter_length_eq_length]

theorem all_opp_iff_count (w : List (Option String)) (opps : List String)
    (hlen : w.length = CONNECT_N) :
    (w.all fun x => x.any fun p => opps.contains p) = true ↔ opp_count w opps = CONNECT_N := by
  rw [List.all_eq_true, opp_count, ← hlen, List.filter_length_eq_length]

theorem score_window_eq_spec (w : List (Option String)) (bot : String) (opps : List String)
    (hlen : w.length = CONNECT_N) :
    score_window w bot opps = score_window_spec w bot opps := by
  unfold score_window score_window_spec
  by_cases h1 : 0 < bot_count w bot ∧ 0 < opp_count w opps
  · rw [if_pos h1, if_pos h1]
  · rw [if_neg h1, if_neg h1]
    by_cases h2 : bot_count w bot = CONNECT_N
    · rw [if_pos h2, if_pos ((all_bot_iff_count w bot hlen).mpr h2)]
    · rw [if_neg h2, if_neg (fun hcon => h2 ((all_bot_iff_count w bot hlen).mp hcon))]
      by_cases h3 : opp_count w opps = CONNECT_N
      · rw [if_pos h3, if_pos ((all_opp_iff_count w opps hlen).mpr h3)]
      · rw [if_neg h3, if_neg (fun hcon => h3 ((all_opp_iff_count w opps hlen).mp hcon))]
        have hdisj : bot_count w bot = 0 ∨ opp_count w opps = 0 := by omega
        rcases hdisj with hb0 | ho0
        · rw [hb0]
          norm_num
        · rw [ho0]
          norm_num

theorem mem_window_list_length (b : Board) (w : List (Option String))
    (hw : w ∈ window_list b) : w.length = CONNECT_N := by
  simp only [window_list, List.mem_flatMap, List.mem_filterMap] at hw
  obtain ⟨r, -, c, -, d, -, hd⟩ := hw
  by_cases hin : in_bounds (r + ((CONNECT_N : Int) - 1) * d.1) (c + ((CONNECT_N : Int) - 1) * d.2)
  · rw [if_pos hin] at hd
    obtain rfl := Option.some_injective _ hd
    rw [window_at, List.length_map, List.length_range]
  · rw [if_neg hin] at hd
    exact absurd hd (by simp)

/-- C4. The window score is exactly the claim's table — contested windows are
0, all-bot windows +10000, all-opponent −10000, then the graded rows +50,
+10, +2, −60, −8, and 0 otherwise — and `evaluate_board` is the sum of all
window scores plus 2.5 per bot disc in the middle column. -/
theorem claim_C4 (b : Board) (bot : String) (opps : List String) :
    (∀ w, w.length = CONNECT_N → score_window w bot opps = score_window_spec w bot opps) ∧
    evaluate_board b bot opps =
      (center_count b bot : ℚ) * (5 / 2) +
        ((window_list b).map fun w => score_window_spec w bot opps).sum := by
  constructor
  · exact fun w hlen => score_window_eq_spec w bot opps hlen
  · unfold evaluate_board
    congr 1
    congr 1
    exact List.map_congr_left fun w hw =>
      score_window_eq_spec w bot opps (mem_window_list_length b w hw)

theorem claim_C4_witness :
    score_window [some "B", some "B", some "B", none] "B" ["P"] =
      score_window_spec [some "B", some "B", some "B", none] "B" ["P"] :=
  (claim_C4 empty_board "B" ["P"]).1 [some "B", some "B", some "B", none] (by decide)

/-- C10. A window with no bot disc is never zeroed as contested: opponent
discs are counted by membership in the opponent list, so discs of several
distinct opponents aggregate into one side — four of them score −10000 and
three of them plus an empty score −60. -/
theorem claim_C10 (w : List (Option String)) (bot : String) (opps : List String)
    (hb : bot_count w bot = 0) :
    (opp_count w opps = CONNECT_N → score_window w bot opps = -WIN_SCORE) ∧
    (opp_count w opps = 3 ∧ empty_count w = 1 → score_window w bot opps = -60) := by
  unfold score_window
  constructor
  · intro h4
    rw [if_neg (by omega), if_neg (by rw [hb]; decide), if_pos h4]
  · intro h31
    rw [if_neg (by omega), if_neg (by rw [hb]; decide),
      if_neg (by rw [h31.1]; decide),
      if_neg (by omega : ¬(bot_count w bot = 3 ∧ empty_count w = 1)),
      if_neg (by omega : ¬(bot_count w bot = 2 ∧ empty_count w = 2)),
      if_neg (by omega : ¬(bot_count w bot = 1 ∧ empty_count w = 3)),
      if_pos h31, zero_add]

theorem claim_C10_witness :
    bot_count [some "P1", some "P2", some "P3", none] "B" = 0 ∧
    score_window [some "P1", some "P2", some "P3", none] "B" ["P1", "P2", "P3"] = -60 :=
  ⟨by decide,
    (claim_C10 [some "P1", some "P2", some "P3", none] "B" ["P1", "P2", "P3"]
      (by decide)).2 ⟨by decide, by decide⟩⟩

theorem opp_count_singleton (w : List (Option String)) (q : String) :
    opp_count w [q] = bot_count w q := by
  unfold opp_count bot_count
  congr 1
  refine List.filter_congr fun x _ => ?_
  rcases x with _ | p
  · simp
  · simp [List.contains, eq_comm]

/-- C5, corrected. The identifier-swap antisymmetry holds for the window
score on completely filled two-identifier windows, where only the
contested and four-in-a-row cases can fire; it fails for `evaluate_board`
as a whole because the graded weights are deliberately asymmetric
(60 versus 50 and 8 versus 10) and the centre bonus counts only bot discs
(see `claim_C5_cex`). -/
theorem claim_C5 (w : List (Option String)) (A B : String) (hAB : A ≠ B)
    (hlen : w.length = CONNECT_N) (hfull : ∀ x ∈ w, x = some A ∨ x = some B) :
    score_window w A [B] = -score_window w B [A] := by
  have hempty : empty_count w = 0 := by
    unfold empty_count
    rw [List.length_eq_zero]
    rw [List.filter_eq_nil_iff]
    intro x hx
    rcases hfull x hx with rfl | rfl <;> simp
  have hsum : bot_count w A + bot_count w B = CONNECT_N := by
    have hpart := @List.length_eq_length_filter_add _ w (fun x => decide (x = some A))
    have hcongr : (w.filter fun x => !decide (x = some A)) =
        w.filter fun x => decide (x = some B) :=
      List.filter_congr fun x hx => by
        rcases hfull x hx with rfl | rfl
        · simp [hAB]
        · simp [Ne.symm hAB]
    rw [hcongr] at hpart
    unfold bot_count
    omega
  unfold score_window
  rw [opp_count_singleton w B, opp_count_singleton w A, hempty]
  rcases Nat.lt_or_ge 0 (bot_count w A) with hA | hA
  · rcases Nat.lt_or_ge 0 (bot_count w B) with hB | hB
    · rw [if_pos ⟨hA, hB⟩, if_pos ⟨hB, hA⟩]
      norm_num
    · have hB0 : bot_count w B = 0 := by omega
      have hA4 : bot_count w A = CONNECT_N := by omega
      rw [if_neg (by omega), if_pos hA4, if_neg (by omega),
        if_neg (by rw [hB0]; decide), if_pos hA4]
      norm_num
  · have hA0 : bot_count w A = 0 := by omega
    have hB4 : bot_count w B = CONNECT_N := by omega
    rw [if_neg (by omega), if_neg (by rw [hA0]; decide), if_pos hB4,
      if_neg (by omega), if_pos hB4]

set_option maxRecDepth 400000 in
theorem c5_eval_left : evaluate_board c5_board "A" ["B"] = 33 / 2 := by
  with_unfolding_all rfl

set_option maxRecDepth 400000 in
theorem c5_eval_right : evaluate_board c5_board "B" ["A"] = 6 := by
  with_unfolding_all rfl

/-- C5 counterexample: a board whose non-empty cells are exactly one "A"
disc (on the centre column) and one "B" disc evaluates to 33/2 for A but
to 6 for B, and 33/2 ≠ -6 — swapping the identifiers does not negate
`evaluate_board`. -/
theorem claim_C5_cex :
    (∀ r, r < ROWS → ∀ c, c < COLS →
      cell c5_board r c = none ∨ cell c5_board r c = some "A" ∨ cell c5_board r c = some "B") ∧
    cell c5_board 9 5 = some "A" ∧ cell c5_board 9 0 = some "B" ∧
    evaluate_board c5_board "A" ["B"] ≠ -evaluate_board c5_board "B" ["A"] := by
  refine ⟨by decide, by decide, by decide, ?_⟩
  rw [c5_eval_left, c5_eval_right]
  norm_num

theorem claim_C5_witness :
    score_window [some "A", some "A", some "B", some "B"] "A" ["B"] =
      -score_window [some "A", some "A", some "B", some "B"] "B" ["A"] :=
  claim_C5 [some "A", some "A", some "B", some "B"] "A" "B"
    (by decide) (by decide) (by decide)

/-! ## C1: alpha-beta never changes the top-level score

The Knuth-Moore correctness argument: every loop of the pruned search
returns a value `ABapprox`-related to the unpruned fold over the same
children, and at the full window `(-inf, inf)` that relation forces
equality. -/

theorem abapprox_refl (v α β : EScore) : ABapprox v v α β :=
  ⟨fun _ => le_rfl, fun _ => le_rfl, fun _ _ => rfl⟩

theorem foldl_max_init (fs : Nat → EScore) :
    ∀ (cs : List Nat) (a b : EScore),
      fold_from_max fs cs (max a b) = max a (fold_from_max fs cs b) := by
  intro cs
  induction cs with
  | nil => intro a b; rfl
  | cons c rest ih =>
    intro a b
    unfold fold_from_max at ih ⊢
    rw [List.foldl_cons, List.foldl_cons, max_assoc, ih]

theorem fold_from_max_eq_max (fs : Nat → EScore) (cs : List Nat) (a : EScore) :
    fold_from_max fs cs a = max a (fold_from_max fs cs ⊥) := by
  have h := foldl_max_init fs cs a ⊥
  rw [max_eq_left bot_le] at h
  exact h

theorem le_fold_from_max (fs : Nat → EScore) (cs : List Nat) (a : EScore) :
    a ≤ fold_from_max fs cs a := by
  rw [fold_from_max_eq_max]
  exact le_max_left _ _

theorem fold_from_max_mono (fs : Nat → EScore) (cs : List Nat) {a b : EScore}
    (h : a ≤ b) : fold_from_max fs cs a ≤ fold_from_max fs cs b := by
  rw [fold_from_max_eq_max, fold_from_max_eq_max fs cs b]
  exact max_le_max h le_rfl

theorem max_loop_ge (f : Nat → EScore → EScore) (β : EScore) :
    ∀ (cs : List Nat) (α value : EScore), value ≤ max_loop f β cs α value := by
  intro cs
  induction cs with
  | nil => intro α value; simp [max_loop]
  | cons c rest ih =>
    intro α value
    simp only [max_loop]
    split
    · exact le_max_left _ _
    · exact le_trans (le_max_left _ _) (ih _ _)

theorem max_loop_approx (f : Nat → EScore → EScore) (fs : Nat → EScore) (β : EScore) :
    ∀ (cs : List Nat), (∀ c ∈ cs, ∀ α, α < β → ABapprox (f c α) (fs c) α β) →
    ∀ (α value : EScore), value ≤ α → α < β →
      ABapprox (max_loop f β cs α value) (fold_from_max fs cs value) α β := by
  intro cs
  induction cs with
  | nil =>
    intro _ α value _ _
    simp only [max_loop, fold_from_max, List.foldl_nil]
    exact abapprox_refl _ _ _
  | cons c rest ih =>
    intro hf α value hva hαβ
    have hchild := hf c (List.mem_cons_self c rest) α hαβ
    simp only [max_loop]
    have hfold : fold_from_max fs (c :: rest) value =
        fold_from_max fs rest (max value (fs c)) := rfl
    rw [hfold]
    have hα2 : max α (max value (f c α)) = max α (f c α) := by
      rw [← max_assoc, max_eq_left hva]
    by_cases hcut : β ≤ max α (max value (f c α))
    · rw [if_pos hcut]
      have hβs : β ≤ f c α := by
        rw [hα2] at hcut
        rcases le_max_iff.mp hcut with h | h
        · exact absurd h (not_le.mpr hαβ)
        · exact h
      have hssI : f c α ≤ fs c := hchild.2.1 hβs
      refine ⟨fun h => ?_, fun _ => ?_, fun h1 h2 => ?_⟩
      · exact absurd (le_trans (le_trans hβs (le_max_right value (f c α))) h)
          (not_le.mpr hαβ)
      · exact le_trans (max_le_max le_rfl hssI) (le_fold_from_max fs rest _)
      · exact absurd h2 (not_lt.mpr (le_trans hβs (le_max_right value (f c α))))
    · rw [if_neg hcut]
      have hα2β : max α (max value (f c α)) < β := not_le.mp hcut
      have hrest : ∀ c' ∈ rest, ∀ α', α' < β → ABapprox (f c' α') (fs c') α' β :=
        fun c' hc' => hf c' (List.mem_cons_of_mem c hc')
      have hIH := ih hrest (max α (max value (f c α))) (max value (f c α))
        (le_max_right _ _) hα2β
      rcases le_or_lt (f c α) α with hsa | has
      · -- fail-low child: the exact child value is also below the window
        have hw : fs c ≤ f c α := hchild.1 hsa
        have hvsa : max value (f c α) ≤ α := max_le hva hsa
        have hα2α : max α (max value (f c α)) = α := max_eq_left hvsa
        rw [hα2α] at hIH ⊢
        have hws := fold_from_max_eq_max fs rest (max value (f c α))
        have hwfs := fold_from_max_eq_max fs rest (max value (fs c))
        refine ⟨fun h => ?_, fun h => ?_, fun h1 h2 => ?_⟩
        · refine le_trans ?_ (hIH.1 h)
          exact fold_from_max_mono fs rest (max_le_max le_rfl hw)
        · have h2 := hIH.2.1 h
          rw [hws] at h2
          rcases max_choice (max value (f c α)) (fold_from_max fs rest ⊥) with hch | hch
          · rw [hch] at h2
            exact absurd (le_trans h (le_trans h2 hvsa)) (not_le.mpr hαβ)
          · rw [hch] at h2
            rw [hwfs]
            exact le_trans h2 (le_max_right _ _)
        · have hIH3 := hIH.2.2 h1 h2
          rw [hws] at hIH3
          rcases max_choice (max value (f c α)) (fold_from_max fs rest ⊥) with hch | hch
          · rw [hch] at hIH3
            exact absurd h1 (not_lt.mpr (le_of_eq_of_le hIH3 hvsa))
          · rw [hIH3, hch, hwfs]
            have hlt : max value (fs c) ≤ fold_from_max fs rest ⊥ := by
              have hle : max value (fs c) ≤ max value (f c α) := max_le_max le_rfl hw
              have hbig : max value (f c α) < fold_from_max fs rest ⊥ := by
                rw [hIH3, hch] at h1
                exact lt_of_le_of_lt hvsa h1
              exact le_of_lt (lt_of_le_of_lt hle hbig)
            rw [max_eq_right hlt]
      · -- the child value is inside the window, hence exact
        have hα2s : max α (max value (f c α)) = f c α := by
          rw [hα2, max_eq_right (le_of_lt has)]
        have hsβ : f c α < β := by rw [hα2s] at hα2β; exact hα2β
        have hsfs : f c α = fs c := hchild.2.2 has hsβ
        rw [hα2s] at hIH ⊢
        rw [← hsfs]
        refine ⟨fun h => ?_, fun h => ?_, fun h1 h2 => ?_⟩
        · have hge := max_loop_ge f β rest (f c α) (max value (f c α))
          exact absurd h (not_le.mpr (lt_of_lt_of_le has
            (le_trans (le_max_right value (f c α)) hge)))
        · exact hIH.2.1 h
        · rcases lt_or_le (f c α) (max_loop f β rest (f c α) (max value (f c α))) with hv | hv
          · exact hIH.2.2 hv h2
          · have hge := max_loop_ge f β rest (f c α) (max value (f c α))
            have hveq : max_loop f β rest (f c α) (max value (f c α)) = f c α :=
              le_antisymm hv (le_trans (le_max_right _ _) hge)
            have hw1 := hIH.1 (le_of_eq hveq)
            have hw2 := le_fold_from_max fs rest (max value (f c α))
            refine le_antisymm ?_ hw1
            rw [hveq]
            exact le_trans (le_max_right value (f c α)) hw2

theorem foldl_min_init (gs : Nat → String → EScore) :
    ∀ (ps : List (Nat × String)) (a b : EScore),
      fold_from_min gs ps (min a b) = min a (fold_from_min gs ps b) := by
  intro ps
  induction ps with
  | nil => intro a b; rfl
  | cons q rest ih =>
    intro a b
    unfold fold_from_min at ih ⊢
    rw [List.foldl_cons, List.foldl_cons, min_assoc, ih]

theorem fold_from_min_eq_min (gs : Nat → String → EScore) (ps : List (Nat × String))
    (a : EScore) : fold_from_min gs ps a = min a (fold_from_min gs ps ⊤) := by
  have h := foldl_min_init gs ps a ⊤
  rw [min_eq_left le_top] at h
  exact h

theorem fold_from_min_le (gs : Nat → String → EScore) (ps : List (Nat × String))
    (a : EScore) : fold_from_min gs ps a ≤ a := by
  rw [fold_from_min_eq_min]
  exact min_le_left _ _

theorem min_if_lt (s v : EScore) : (if s < v then s else v) = min v s := by
  rcases lt_or_le s v with h | h
  · rw [if_pos h, min_eq_right (le_of_lt h)]
  · rw [if_neg (not_lt.mpr h), min_eq_left h]

theorem flat_min_loop_le (g : Nat → String → EScore → EScore) (α : EScore) :
    ∀ (ps : List (Nat × String)) (β value : EScore),
      flat_min_loop g α ps β value ≤ value := by
  intro ps
  induction ps with
  | nil => intro β value; simp [flat_min_loop]
  | cons q rest ih =>
    intro β value
    simp only [flat_min_loop, min_if_lt]
    split
    · exact min_le_left _ _
    · exact le_trans (ih _ _) (min_le_left _ _)

theorem flat_min_loop_approx (g : Nat → String → EScore → EScore)
    (gs : Nat → String → EScore) (α : EScore) :
    ∀ (ps : List (Nat × String)),
      (∀ q ∈ ps, ∀ β, α < β → ABapprox (g q.1 q.2 β) (gs q.1 q.2) α β) →
    ∀ (β value : EScore), β ≤ value → α < β →
      ABapprox (flat_min_loop g α ps β value) (fold_from_min gs ps value) α β := by
  intro ps
  induction ps with
  | nil =>
    intro _ β value _ _
    simp only [flat_min_loop, fold_from_min, List.foldl_nil]
    exact abapprox_refl _ _ _
  | cons q rest ih =>
    intro hg β value hβv hαβ
    have hchild := hg q (List.mem_cons_self q rest) β hαβ
    simp only [flat_min_loop, min_if_lt]
    have hfold : fold_from_min gs (q :: rest) value =
        fold_from_min gs rest (min value (gs q.1 q.2)) := rfl
    rw [hfold]
    have hβ2 : min β (min value (g q.1 q.2 β)) = min β (g q.1 q.2 β) := by
      rw [← min_assoc, min_eq_left hβv]
    by_cases hcut : min β (min value (g q.1 q.2 β)) ≤ α
    · rw [if_pos hcut]
      have hsα : g q.1 q.2 β ≤ α := by
        rw [hβ2] at hcut
        rcases min_le_iff.mp hcut with h | h
        · exact absurd h (not_le.mpr hαβ)
        · exact h
      have hssI : gs q.1 q.2 ≤ g q.1 q.2 β := hchild.1 hsα
      refine ⟨fun _ => ?_, fun h => ?_, fun h1 h2 => ?_⟩
      · exact le_trans (fold_from_min_le gs rest _) (min_le_min le_rfl hssI)
      · exact absurd (le_trans h (le_trans (min_le_right value _) hsα))
          (not_le.mpr hαβ)
      · exact absurd h1 (not_lt.mpr (le_trans (min_le_right value _) hsα))
    · rw [if_neg hcut]
      have hαβ2 : α < min β (min value (g q.1 q.2 β)) := not_le.mp hcut
      have hrest : ∀ q' ∈ rest, ∀ β', α < β' → ABapprox (g q'.1 q'.2 β') (gs q'.1 q'.2) α β' :=
        fun q' hq' => hg q' (List.mem_cons_of_mem q hq')
      have hIH := ih hrest (min β (min value (g q.1 q.2 β))) (min value (g q.1 q.2 β))
        (min_le_right _ _) hαβ2
      rcases le_or_lt β (g q.1 q.2 β) with hβs | hsβ
      · -- fail-high child
        have hw : g q.1 q.2 β ≤ gs q.1 q.2 := hchild.2.1 hβs
        have hβvs : β ≤ min value (g q.1 q.2 β) := le_min hβv hβs
        have hβ2β : min β (min value (g q.1 q.2 β)) = β := min_eq_left hβvs
        rw [hβ2β] at hIH ⊢
        have hws := fold_from_min_eq_min gs rest (min value (g q.1 q.2 β))
        have hwfs := fold_from_min_eq_min gs rest (min value (gs q.1 q.2))
        refine ⟨fun h => ?_, fun h => ?_, fun h1 h2 => ?_⟩
        · have hval := hIH.1 h
          rw [hws] at hval
          rcases min_choice (min value (g q.1 q.2 β)) (fold_from_min gs rest ⊤) with hch | hch
          · rw [hch] at hval
            exact absurd (le_trans hβvs (le_trans hval h)) (not_le.mpr hαβ)
          · rw [hch] at hval
            rw [hwfs]
            exact le_trans (min_le_right _ _) hval
        · have hval := hIH.2.1 h
          rw [hws] at hval
          rw [hwfs]
          rcases le_min_iff.mp hval with ⟨hv1, hv2⟩
          exact le_min (le_min (le_trans hv1 (min_le_left _ _))
            (le_trans (le_trans hv1 (min_le_right _ _)) hw)) hv2
        · have hIH3 := hIH.2.2 h1 h2
          rw [hws] at hIH3
          rcases min_choice (min value (g q.1 q.2 β)) (fold_from_min gs rest ⊤) with hch | hch
          · rw [hch] at hIH3
            exact absurd h2 (not_lt.mpr (le_of_le_of_eq hβvs hIH3.symm))
          · rw [hIH3, hch, hwfs]
            have hgt : fold_from_min gs rest ⊤ ≤ min value (gs q.1 q.2) := by
              have hle : min value (g q.1 q.2 β) ≤ min value (gs q.1 q.2) :=
                min_le_min le_rfl hw
              have hbig : fold_from_min gs rest ⊤ < min value (g q.1 q.2 β) := by
                rw [hIH3, hch] at h2
                exact lt_of_lt_of_le h2 hβvs
              exact le_of_lt (lt_of_lt_of_le hbig hle)
            rw [min_eq_right hgt]
      · -- the child value is inside the window, hence exact
        have has : α < g q.1 q.2 β :=
          lt_of_lt_of_le hαβ2 (le_trans (min_le_right β _) (min_le_right value _))
        have hsfs : g q.1 q.2 β = gs q.1 q.2 := hchild.2.2 has hsβ
        have hβ2s : min β (min value (g q.1 q.2 β)) = g q.1 q.2 β := by
          rw [hβ2, min_eq_right (le_of_lt hsβ)]
        rw [hβ2s] at hIH ⊢
        rw [← hsfs]
        refine ⟨fun h => ?_, fun h => ?_, fun h1 h2 => ?_⟩
        · exact hIH.1 h
        · have hle := flat_min_loop_le g α rest (g q.1 q.2 β) (min value (g q.1 q.2 β))
          exact absurd (le_trans h (le_trans hle (min_le_right value _)))
            (not_le.mpr hsβ)
        · rcases lt_or_le (flat_min_loop g α rest (g q.1 q.2 β) (min value (g q.1 q.2 β)))
            (g q.1 q.2 β) with hv | hv
          · exact hIH.2.2 h1 hv
          · have hle := flat_min_loop_le g α rest (g q.1 q.2 β) (min value (g q.1 q.2 β))
            have hveq : flat_min_loop g α rest (g q.1 q.2 β) (min value (g q.1 q.2 β)) =
                g q.1 q.2 β :=
              le_antisymm (le_trans hle (min_le_right _ _)) hv
            have hw1 := hIH.2.1 (le_of_eq hveq.symm)
            have hw2 := fold_from_min_le gs rest (min value (g q.1 q.2 β))
            refine le_antisymm hw1 ?_
            rw [hveq]
            exact le_trans hw2 (min_le_right value _)

/-! The nested minimizing loops equal the flattened pass: the shared
`β ≤ α` cutoff makes the column loop break exactly when the opponent loop
broke, so for a window entered with `α < β` the traversals coincide. -/

theorem min_inner_flat (g : Nat → String → EScore → EScore) (α : EScore) (c : Nat) :
    ∀ (os : List String) (rest : List (Nat × String)) (β value : EScore), α < β →
      flat_min_loop g α (os.map (fun o => (c, o)) ++ rest) β value =
        (if (min_inner g α c os β value).2 ≤ α then (min_inner g α c os β value).1
         else flat_min_loop g α rest (min_inner g α c os β value).2
           (min_inner g α c os β value).1) := by
  intro os
  induction os with
  | nil =>
    intro rest β value hαβ
    simp only [List.map_nil, List.nil_append, min_inner]
    rw [if_neg (not_le.mpr hαβ)]
  | cons o os' ih =>
    intro rest β value hαβ
    simp only [List.map_cons, List.cons_append, flat_min_loop, min_inner]
    by_cases hcut : min β (if g c o β < value then g c o β else value) ≤ α
    · rw [if_pos hcut, if_pos hcut, if_pos hcut]
    · rw [if_neg hcut, if_neg hcut]
      exact ih rest _ _ (not_le.mp hcut)

theorem min_loop_flat (g : Nat → String → EScore → EScore) (α : EScore)
    (os : List String) :
    ∀ (cs : List Nat) (β value : EScore), α < β →
      min_loop g α os cs β value = flat_min_loop g α (pair_list cs os) β value := by
  intro cs
  induction cs with
  | nil => intro β value _; rfl
  | cons c rest ih =>
    intro β value hαβ
    have hpl : pair_list (c :: rest) os = os.map (fun o => (c, o)) ++ pair_list rest os := by
      simp [pair_list]
    rw [hpl, min_inner_flat g α c os (pair_list rest os) β value hαβ]
    simp only [min_loop]
    by_cases hcut : (min_inner g α c os β value).2 ≤ α
    · rw [if_pos hcut, if_pos hcut]
    · rw [if_neg hcut, if_neg hcut, ih _ _ (not_le.mp hcut)]

/-- The Knuth-Moore theorem for this search: within any window `α < β` the
pruned `minimax` value approximates the unpruned `minimax_full` value. -/
theorem minimax_approx :
    ∀ (d : Nat) (b : Board) (m : Bool) (bot : String) (opps : List String)
      (last : Option (Nat × Nat)) (α β : EScore), α < β →
      ABapprox (minimax d b m bot opps α β last) (minimax_full d b m bot opps last) α β := by
  intro d
  induction d with
  | zero =>
    intro b m bot opps last α β hαβ
    simp only [minimax, minimax_full]
    cases terminal_score b bot 0 last <;> exact abapprox_refl _ _ _
  | succ d ihd =>
    intro b m bot opps last α β hαβ
    simp only [minimax, minimax_full]
    cases terminal_score b bot (d + 1) last with
    | some v =>
      exact abapprox_refl _ _ _
    | none =>
      show ABapprox
        (if board_is_full b then ofQ (evaluate_board b bot opps) else _)
        (if board_is_full b then ofQ (evaluate_board b bot opps) else _) α β
      by_cases hfull : board_is_full b
      · rw [if_pos hfull, if_pos hfull]
        exact abapprox_refl _ _ _
      · rw [if_neg hfull, if_neg hfull]
        by_cases hval : valid_columns b = []
        · rw [if_pos hval, if_pos hval]
          exact abapprox_refl _ _ _
        · rw [if_neg hval, if_neg hval]
          cases m with
          | true =>
            rw [if_pos rfl, if_pos rfl]
            exact max_loop_approx _ _ β (valid_columns b)
              (fun c _ α' hα' =>
                ihd (child_board b c bot) false bot opps (some (drop_of b c, c)) α' β hα')
              α ⊥ bot_le hαβ
          | false =>
            rw [if_neg (by simp), if_neg (by simp)]
            rw [min_loop_flat
              (fun c o β' =>
                minimax d (child_board b c o) true bot opps α β' (some (drop_of b c, c)))
              α opps (valid_columns b) β ⊤ hαβ]
            exact flat_min_loop_approx
              (fun c o β' =>
                minimax d (child_board b c o) true bot opps α β' (some (drop_of b c, c)))
              (fun c o =>
                minimax_full d (child_board b c o) true bot opps (some (drop_of b c, c)))
              α (pair_list (valid_columns b) opps)
              (fun q _ β' hβ' =>
                ihd (child_board b q.1 q.2) true bot opps (some (drop_of b q.1, q.1)) α β' hβ')
              β ⊤ le_top hαβ

/-- At the full window `(-inf, inf)` the pruned and unpruned searches agree
exactly. -/
theorem minimax_exact (d : Nat) (b : Board) (m : Bool) (bot : String)
    (opps : List String) (last : Option (Nat × Nat)) :
    minimax d b m bot opps ⊥ ⊤ last = minimax_full d b m bot opps last := by
  have h := minimax_approx d b m bot opps last ⊥ ⊤ bot_lt_top
  rcases eq_or_ne (minimax d b m bot opps ⊥ ⊤ last) ⊥ with hv | hv
  · rw [hv]
    exact (le_bot_iff.mp (hv ▸ h.1 (le_of_eq hv))).symm
  rcases eq_or_ne (minimax d b m bot opps ⊥ ⊤ last) ⊤ with hv2 | hv2
  · rw [hv2]
    exact (top_le_iff.mp (hv2 ▸ h.2.1 (le_of_eq hv2.symm))).symm
  · exact h.2.2 (Ne.bot_lt hv) (Ne.lt_top hv2)

/-- C1. For every board, identifiers and depth, the score `choose_best_move`
computes with alpha-beta pruning (double break included) equals the score
of the unpruned full minimax search of the same tree at the same depth.
The two searches differ only in how many nodes they visit. -/
theorem claim_C1 (b : Board) (bot : String) (opp_ids : List String) (depth : Nat) :
    (choose_best_move b bot opp_ids depth).map (fun t => t.2.2) =
      (choose_best_move_full b bot opp_ids depth).map (fun t => t.2.2) := by
  have hts : top_score b bot (resolve_opponents b bot opp_ids) depth =
      top_score_full b bot (resolve_opponents b bot opp_ids) depth := by
    funext c
    exact minimax_exact (depth - 1) (child_board b c bot) false bot
      (resolve_opponents b bot opp_ids) (some (drop_of b c, c))
  simp only [choose_best_move, choose_best_move_full]
  rw [hts]

/-! ## C2: choose_best_move picks the first column attaining the maximum

The search values are finite (never ±inf) whenever the opponent list is
non-empty, so the top-level loop always selects a move, and `score >
best_score` keeps the lowest-indexed column among ties. -/

theorem bot_lt_ofQ (q : ℚ) : (⊥ : EScore) < ofQ q := WithBot.bot_lt_coe _

theorem ofQ_lt_top (q : ℚ) : ofQ q < (⊤ : EScore) :=
  WithBot.coe_lt_coe.mpr (WithTop.coe_lt_top q)

theorem terminal_score_finite {b : Board} {bot : String} {d : Nat}
    {last : Option (Nat × Nat)} {v : EScore}
    (h : terminal_score b bot d last = some v) : ⊥ < v ∧ v < ⊤ := by
  rcases last with _ | ⟨r, c⟩
  · exact absurd h (by simp [terminal_score])
  · simp only [terminal_score] at h
    by_cases hw : check_win b r c CONNECT_N
    · rw [if_pos hw] at h
      obtain rfl := Option.some_injective _ h.symm
      by_cases hcell : cell b r c = some bot
      · rw [if_pos hcell]
        exact ⟨bot_lt_ofQ _, ofQ_lt_top _⟩
      · rw [if_neg hcell]
        exact ⟨bot_lt_ofQ _, ofQ_lt_top _⟩
    · rw [if_neg hw] at h
      exact absurd h (by simp)

theorem max_loop_lt_top (f : Nat → EScore → EScore) (β : EScore)
    (hf : ∀ c α', f c α' < ⊤) :
    ∀ (cs : List Nat) (α value : EScore), value < ⊤ → max_loop f β cs α value < ⊤ := by
  intro cs
  induction cs with
  | nil => intro α value h; simpa [max_loop] using h
  | cons c rest ih =>
    intro α value h
    simp only [max_loop]
    split
    · exact max_lt h (hf c α)
    · exact ih _ _ (max_lt h (hf c α))

theorem bot_lt_max_loop_of_value (f : Nat → EScore → EScore) (β : EScore) :
    ∀ (cs : List Nat) (α value : EScore), ⊥ < value → ⊥ < max_loop f β cs α value := by
  intro cs
  induction cs with
  | nil => intro α value h; simpa [max_loop] using h
  | cons c rest ih =>
    intro α value h
    simp only [max_loop]
    split
    · exact lt_of_lt_of_le h (le_max_left _ _)
    · exact ih _ _ (lt_of_lt_of_le h (le_max_left _ _))

theorem bot_lt_max_loop (f : Nat → EScore → EScore) (β : EScore)
    (hf : ∀ c α', ⊥ < f c α') :
    ∀ (cs : List Nat) (α : EScore), cs ≠ [] → ⊥ < max_loop f β cs α ⊥ := by
  intro cs
  cases cs with
  | nil => intro α h; exact absurd rfl h
  | cons c rest =>
    intro α _
    simp only [max_loop]
    split
    · exact lt_of_lt_of_le (hf c α) (le_max_right _ _)
    · exact bot_lt_max_loop_of_value f β rest _ _
        (lt_of_lt_of_le (hf c α) (le_max_right _ _))

theorem min_inner_fst_le (g : Nat → String → EScore → EScore) (α : EScore) (c : Nat) :
    ∀ (os : List String) (β value : EScore), (min_inner g α c os β value).1 ≤ value := by
  intro os
  induction os with
  | nil => intro β value; exact le_rfl
  | cons o os' ih =>
    intro β value
    simp only [min_inner, min_if_lt]
    split
    · exact min_le_left _ _
    · exact le_trans (ih _ _) (min_le_left _ _)

theorem bot_lt_min_inner (g : Nat → String → EScore → EScore) (α : EScore) (c : Nat)
    (hg : ∀ c' o β', ⊥ < g c' o β') :
    ∀ (os : List String) (β value : EScore), ⊥ < value →
      ⊥ < (min_inner g α c os β value).1 := by
  intro os
  induction os with
  | nil => intro β value h; exact h
  | cons o os' ih =>
    intro β value h
    simp only [min_inner, min_if_lt]
    split
    · exact lt_min h (hg c o β)
    · exact ih _ _ (lt_min h (hg c o β))

theorem min_inner_fst_lt_top (g : Nat → String → EScore → EScore) (α : EScore) (c : Nat)
    (hg : ∀ c' o β', g c' o β' < ⊤) (os : List String) (β : EScore)
    (hos : os ≠ []) : (min_inner g α c os β ⊤).1 < ⊤ := by
  cases os with
  | nil => exact absurd rfl hos
  | cons o os' =>
    simp only [min_inner, min_if_lt]
    have hlt : min (⊤ : EScore) (g c o β) < ⊤ :=
      lt_of_le_of_lt (min_le_right _ _) (hg c o β)
    split
    · exact hlt
    · exact lt_of_le_of_lt (min_inner_fst_le g α c os' _ _) hlt

theorem min_loop_le (g : Nat → String → EScore → EScore) (α : EScore) (os : List String) :
    ∀ (cs : List Nat) (β value : EScore), min_loop g α os cs β value ≤ value := by
  intro cs
  induction cs with
  | nil => intro β value; exact le_rfl
  | cons c rest ih =>
    intro β value
    simp only [min_loop]
    split
    · exact min_inner_fst_le g α c os _ _
    · exact le_trans (ih _ _) (min_inner_fst_le g α c os _ _)

theorem bot_lt_min_loop (g : Nat → String → EScore → EScore) (α : EScore)
    (os : List String) (hg : ∀ c' o β', ⊥ < g c' o β') :
    ∀ (cs : List Nat) (β value : EScore), ⊥ < value →
      ⊥ < min_loop g α os cs β value := by
  intro cs
  induction cs with
  | nil => intro β value h; exact h
  | cons c rest ih =>
    intro β value h
    simp only [min_loop]
    split
    · exact bot_lt_min_inner g α c hg os _ _ h
    · exact ih _ _ (bot_lt_min_inner g α c hg os _ _ h)

theorem min_loop_lt_top (g : Nat → String → EScore → EScore) (α : EScore)
    (os : List String) (hg : ∀ c' o β', g c' o β' < ⊤)
    (cs : List Nat) (β : EScore) (hcs : cs ≠ []) (hos : os ≠ []) :
    min_loop g α os cs β ⊤ < ⊤ := by
  cases cs with
  | nil => exact absurd rfl hcs
  | cons c rest =>
    simp only [min_loop]
    have hlt := min_inner_fst_lt_top g α c hg os β hos
    split
    · exact hlt
    · exact lt_of_le_of_lt (min_loop_le g α os rest _ _) hlt

/-- With a non-empty opponent list, `minimax` never returns ±inf. -/
theorem minimax_finite :
    ∀ (d : Nat) (b : Board) (m : Bool) (bot : String) (opps : List String)
      (α β : EScore) (last : Option (Nat × Nat)), opps ≠ [] →
      ⊥ < minimax d b m bot opps α β last ∧ minimax d b m bot opps α β last < ⊤ := by
  intro d
  induction d with
  | zero =>
    intro b m bot opps α β last _
    simp only [minimax]
    cases hts : terminal_score b bot 0 last with
    | some v => exact terminal_score_finite hts
    | none => exact ⟨bot_lt_ofQ _, ofQ_lt_top _⟩
  | succ d ihd =>
    intro b m bot opps α β last hopps
    simp only [minimax]
    cases hts : terminal_score b bot (d + 1) last with
    | some v => exact terminal_score_finite hts
    | none =>
      show ⊥ < (if board_is_full b then ofQ (evaluate_board b bot opps) else _) ∧ _
      by_cases hfull : board_is_full b
      · rw [if_pos hfull]
        exact ⟨bot_lt_ofQ _, ofQ_lt_top _⟩
      · rw [if_neg hfull]
        by_cases hval : valid_columns b = []
        · rw [if_pos hval]
          exact ⟨bot_lt_ofQ _, ofQ_lt_top _⟩
        · rw [if_neg hval]
          cases m with
          | true =>
            rw [if_pos rfl]
            constructor
            · exact bot_lt_max_loop _ β
                (fun c α' => (ihd (child_board b c bot) false bot opps α' β
                  (some (drop_of b c, c)) hopps).1)
                (valid_columns b) α hval
            · exact max_loop_lt_top _ β
                (fun c α' => (ihd (child_board b c bot) false bot opps α' β
                  (some (drop_of b c, c)) hopps).2)
                (valid_columns b) α ⊥ bot_lt_top
          | false =>
            rw [if_neg (by simp)]
            constructor
            · exact bot_lt_min_loop _ α opps
                (fun c o β' => (ihd (child_board b c o) true bot opps α β'
                  (some (drop_of b c, c)) hopps).1)
                (valid_columns b) β ⊤ bot_lt_top
            · exact min_loop_lt_top _ α opps
                (fun c o β' => (ihd (child_board b c o) true bot opps α β'
                  (some (drop_of b c, c)) hopps).2)
                (valid_columns b) β hval hopps

theorem infer_opponents_ne_nil (b : Board) (bot : String) : infer_opponents b bot ≠ [] := by
  show (if (b.flatten.reduceOption.filter fun p => decide (p ≠ bot)).dedup = []
    then ["P1", "P2"]
    else (b.flatten.reduceOption.filter fun p => decide (p ≠ bot)).dedup) ≠ []
  split
  · simp
  · next h => exact h

theorem resolve_opponents_ne_nil (b : Board) (bot : String) (opp_ids : List String) :
    resolve_opponents b bot opp_ids ≠ [] := by
  show (if opp_ids = [] then infer_opponents b bot else opp_ids) ≠ []
  split
  · exact infer_opponents_ne_nil b bot
  · next h => exact h

theorem valid_columns_pairwise (b : Board) : (valid_columns b).Pairwise (· < ·) :=
  (List.pairwise_lt_range COLS).filter _

/-- The best-move loop, entered with an incumbent column `c0` whose score is
the current best: it ends on the first-seen column of maximum score. -/
theorem best_loop_spec (S : Nat → EScore) (R : Nat → Nat) :
    ∀ (cs : List Nat), cs.Pairwise (· < ·) → ∀ (c0 : Nat), (∀ c ∈ cs, c0 < c) →
      ∃ col, best_loop S R cs (S c0) (some (R c0, c0)) = (S col, some (R col, col)) ∧
        (col = c0 ∨ col ∈ cs) ∧
        (∀ c, c = c0 ∨ c ∈ cs → S c ≤ S col) ∧
        (∀ c, c = c0 ∨ c ∈ cs → c < col → S c < S col) := by
  intro cs
  induction cs with
  | nil =>
    intro _ c0 _
    refine ⟨c0, rfl, Or.inl rfl, fun c hc => ?_, fun c hc hlt => ?_⟩
    · rcases hc with rfl | h
      · exact le_rfl
      · exact absurd h (List.not_mem_nil c)
    · rcases hc with rfl | h
      · exact absurd hlt (lt_irrefl c)
      · exact absurd h (List.not_mem_nil c)
  | cons c rest ih =>
    intro hsort c0 hc0
    have hcr : ∀ c' ∈ rest, c < c' := (List.pairwise_cons.mp hsort).1
    have hsort' : rest.Pairwise (· < ·) := (List.pairwise_cons.mp hsort).2
    simp only [best_loop]
    by_cases hgt : S c0 < S c
    · rw [if_pos hgt]
      obtain ⟨col, heq, hmem, hmax, hstrict⟩ := ih hsort' c hcr
      refine ⟨col, heq, ?_, fun x hx => ?_, fun x hx hlt => ?_⟩
      · rcases hmem with rfl | h
        · exact Or.inr (List.mem_cons_self _ _)
        · exact Or.inr (List.mem_cons_of_mem _ h)
      · rcases hx with rfl | hx
        · exact le_trans (le_of_lt hgt) (hmax c (Or.inl rfl))
        · rcases List.mem_cons.mp hx with rfl | hx'
          · exact hmax x (Or.inl rfl)
          · exact hmax x (Or.inr hx')
      · rcases hx with rfl | hx
        · exact lt_of_lt_of_le hgt (hmax c (Or.inl rfl))
        · rcases List.mem_cons.mp hx with rfl | hx'
          · exact hstrict x (Or.inl rfl) hlt
          · exact hstrict x (Or.inr hx') hlt
    · rw [if_neg hgt]
      have hle : S c ≤ S c0 := not_lt.mp hgt
      have hc0r : ∀ c' ∈ rest, c0 < c' :=
        fun c' hc' => lt_trans (hc0 c (List.mem_cons_self _ _)) (hcr c' hc')
      obtain ⟨col, heq, hmem, hmax, hstrict⟩ := ih hsort' c0 hc0r
      refine ⟨col, heq, ?_, fun x hx => ?_, fun x hx hlt => ?_⟩
      · rcases hmem with rfl | h
        · exact Or.inl rfl
        · exact Or.inr (List.mem_cons_of_mem _ h)
      · rcases hx with rfl | hx
        · exact hmax x (Or.inl rfl)
        · rcases List.mem_cons.mp hx with rfl | hx'
          · exact le_trans hle (hmax c0 (Or.inl rfl))
          · exact hmax x (Or.inr hx')
      · rcases hx with rfl | hx
        · exact hstrict x (Or.inl rfl) hlt
        · rcases List.mem_cons.mp hx with rfl | hx'
          · -- x = c, c < col: col ≠ c0 since c0 < c < col
            have hc0x : c0 < x := hc0 x (List.mem_cons_self _ _)
            have hc0col : c0 < col := lt_trans hc0x hlt
            exact lt_of_le_of_lt hle (hstrict c0 (Or.inl rfl) hc0col)
          · exact hstrict x (Or.inr hx') hlt

theorem best_loop_main (S : Nat → EScore) (R : Nat → Nat) (cs : List Nat)
    (hsort : cs.Pairwise (· < ·)) (hfin : ∀ c ∈ cs, ⊥ < S c) (hne : cs ≠ []) :
    ∃ col, best_loop S R cs ⊥ none = (S col, some (R col, col)) ∧ col ∈ cs ∧
      (∀ c ∈ cs, S c ≤ S col) ∧ (∀ c ∈ cs, c < col → S c < S col) := by
  cases cs with
  | nil => exact absurd rfl hne
  | cons c rest =>
    simp only [best_loop]
    rw [if_pos (hfin c (List.mem_cons_self _ _))]
    have hcr : ∀ c' ∈ rest, c < c' := (List.pairwise_cons.mp hsort).1
    have hsort' : rest.Pairwise (· < ·) := (List.pairwise_cons.mp hsort).2
    obtain ⟨col, heq, hmem, hmax, hstrict⟩ := best_loop_spec S R rest hsort' c hcr
    refine ⟨col, heq, ?_, fun x hx => ?_, fun x hx hlt => ?_⟩
    · rcases hmem with rfl | h
      · exact List.mem_cons_self _ _
      · exact List.mem_cons_of_mem _ h
    · rcases List.mem_cons.mp hx with rfl | hx'
      · exact hmax x (Or.inl rfl)
      · exact hmax x (Or.inr hx')
    · rcases List.mem_cons.mp hx with rfl | hx'
      · exact hstrict x (Or.inl rfl) hlt
      · exact hstrict x (Or.inr hx') hlt

/-- C2. On a board with a playable column and a depth of at least 1,
`choose_best_move` returns the lowest-indexed valid column whose child
attains the maximum of the per-column search values, that column's drop
row, and that maximum score: every valid column scores at most the chosen
one, and every valid column before it scores strictly less (ties keep the
first-seen column, since only a strictly greater score replaces the
incumbent). -/
theorem claim_C2 (b : Board) (bot : String) (opp_ids : List String) (depth : Nat)
    (hdepth : 1 ≤ depth) (hvalid : valid_columns b ≠ []) :
    ∃ col row,
      choose_best_move b bot opp_ids depth =
        some (col, row, top_score b bot (resolve_opponents b bot opp_ids) depth col) ∧
      col ∈ valid_columns b ∧
      find_drop_row b col = some row ∧
      (∀ c ∈ valid_columns b,
        top_score b bot (resolve_opponents b bot opp_ids) depth c ≤
          top_score b bot (resolve_opponents b bot opp_ids) depth col) ∧
      (∀ c ∈ valid_columns b, c < col →
        top_score b bot (resolve_opponents b bot opp_ids) depth c <
          top_score b bot (resolve_opponents b bot opp_ids) depth col) := by
  have hopps := resolve_opponents_ne_nil b bot opp_ids
  have hfin : ∀ c ∈ valid_columns b,
      ⊥ < top_score b bot (resolve_opponents b bot opp_ids) depth c :=
    fun c _ => (minimax_finite (depth - 1) (child_board b c bot) false bot
      (resolve_opponents b bot opp_ids) ⊥ ⊤ (some (drop_of b c, c)) hopps).1
  obtain ⟨col, heq, hmem, hmax, hstrict⟩ :=
    best_loop_main (top_score b bot (resolve_opponents b bot opp_ids) depth)
      (drop_of b) (valid_columns b) (valid_columns_pairwise b) hfin hvalid
  have hdrop : find_drop_row b col = some (drop_of b col) := by
    have hsome : (find_drop_row b col).isSome = true := by
      have := (List.mem_filter.mp hmem).2
      simpa using this
    rcases hopt : find_drop_row b col with _ | r
    · rw [hopt] at hsome
      exact absurd hsome (by simp)
    · simp [drop_of, hopt]
  refine ⟨col, drop_of b col, ?_, hmem, hdrop, hmax, hstrict⟩
  simp only [choose_best_move]
  rw [if_neg hvalid, heq]

theorem claim_C2_witness :
    (1 ≤ 1 ∧ valid_columns c2_board ≠ []) ∧
    ∃ col row,
      choose_best_move c2_board "B" ["P"] 1 =
        some (col, row, top_score c2_board "B" (resolve_opponents c2_board "B" ["P"]) 1 col) ∧
      col ∈ valid_columns c2_board ∧
      find_drop_row c2_board col = some row ∧
      (∀ c ∈ valid_columns c2_board,
        top_score c2_board "B" (resolve_opponents c2_board "B" ["P"]) 1 c ≤
          top_score c2_board "B" (resolve_opponents c2_board "B" ["P"]) 1 col) ∧
      (∀ c ∈ valid_columns c2_board, c < col →
        top_score c2_board "B" (resolve_opponents c2_board "B" ["P"]) 1 c <
          top_score c2_board "B" (resolve_opponents c2_board "B" ["P"]) 1 col) :=
  ⟨⟨le_rfl, by decide⟩, claim_C2 c2_board "B" ["P"] 1 le_rfl (by decide)⟩

end Connect4

namespace DiceTurn

/-! ## C8, C9: the turn-fatigue dice roller -/

theorem roll_pool_none (players : List String) : roll_pool players none = players := by
  show (if players = [] then players else players) = players
  exact ite_self players

theorem roll_pool_some (players : List String) (s : String) :
    roll_pool players (some s) =
      if players.filter (fun p => decide (p ≠ s)) = [] then players
      else players.filter (fun p => decide (p ≠ s)) := rfl

theorem roll_pool_subset (players : List String) (skip : Option String) (x : String)
    (h : x ∈ roll_pool players skip) : x ∈ players := by
  rcases skip with _ | s
  · rw [roll_pool_none] at h
    exact h
  · rw [roll_pool_some] at h
    by_cases hf : players.filter (fun p => decide (p ≠ s)) = []
    · rw [if_pos hf] at h
      exact h
    · rw [if_neg hf] at h
      exact List.mem_of_mem_filter h

theorem roll_pool_ne_nil (players : List String) (skip : Option String)
    (h : players ≠ []) : roll_pool players skip ≠ [] := by
  rcases skip with _ | s
  · rw [roll_pool_none]
    exact h
  · rw [roll_pool_some]
    by_cases hf : players.filter (fun p => decide (p ≠ s)) = []
    · rw [if_pos hf]
      exact h
    · rw [if_neg hf]
      exact hf

theorem mem_roll_pool_some (players : List String) (s x : String)
    (hx : x ∈ players) (hxs : x ≠ s) : x ∈ roll_pool players (some s) := by
  have hmem : x ∈ players.filter (fun p => decide (p ≠ s)) :=
    List.mem_filter.mpr ⟨hx, by simpa using hxs⟩
  rw [roll_pool_some, if_neg (List.ne_nil_of_mem hmem)]
  exact hmem

theorem not_mem_roll_pool_self (players : List String) (p x : String)
    (hx : x ∈ players) (hxp : x ≠ p) : p ∉ roll_pool players (some p) := by
  rw [roll_pool_some, if_neg (List.ne_nil_of_mem (List.mem_filter.mpr ⟨hx, by simpa using hxp⟩))]
  intro hmem
  simpa using (List.mem_filter.mp hmem).2

theorem getD_mod_mem (l : List String) (i : Nat) (h : l ≠ []) :
    l.getD (i % l.length) "" ∈ l := by
  have hlt : i % l.length < l.length := Nat.mod_lt _ (List.length_pos.mpr h)
  rw [List.getD_eq_getElem?_getD, List.getElem?_eq_getElem hlt]
  exact List.getElem_mem hlt

/-- The components of a successful roll, read back from the definition. -/
theorem roll_eqs (players : List String) (s : TurnState) (i : Nat)
    (r : RollResult) (s' : TurnState)
    (h : roll_next_turn players s i = some (r, s')) :
    players ≠ [] ∧
    r.player = (roll_pool players s.skip_next).getD
      (i % (roll_pool players s.skip_next).length) "" ∧
    s'.last_player = some r.player ∧
    s'.skip_next = (if 2 ≤ (if some r.player = s.last_player
      then s.consecutive_count + 1 else 1) then some r.player else none) ∧
    s'.consecutive_count = (if 2 ≤ (if some r.player = s.last_player
      then s.consecutive_count + 1 else 1) then 0
      else (if some r.player = s.last_player then s.consecutive_count + 1 else 1)) := by
  unfold roll_next_turn at h
  by_cases hp : players = []
  · rw [if_pos hp] at h; exact absurd h (by simp)
  · rw [if_neg hp] at h
    obtain ⟨hr, hs⟩ := Prod.mk.injEq .. ▸ Option.some_injective _ h
    subst hr hs
    exact ⟨hp, rfl, rfl, rfl, rfl⟩

/-- C9. `roll_next_turn` fails exactly on the empty player list, and a
successful roll always hands the turn to a member of the supplied list
(the fatigue rule's fallback re-admits everyone rather than deadlock). -/
theorem claim_C9 (players : List String) (s : TurnState) (i : Nat) :
    (roll_next_turn players s i = none ↔ players = []) ∧
    ∀ r s', roll_next_turn players s i = some (r, s') → r.player ∈ players := by
  constructor
  · constructor
    · intro h
      by_contra hp
      unfold roll_next_turn at h
      rw [if_neg hp] at h
      exact absurd h (by simp)
    · intro hp
      unfold roll_next_turn
      rw [if_pos hp]
  · intro r s' h
    obtain ⟨hp, hr, -⟩ := roll_eqs players s i r s' h
    rw [hr]
    exact roll_pool_subset players s.skip_next _
      (getD_mod_mem _ i (roll_pool_ne_nil players s.skip_next hp))

/-- C8. With at least two distinct players, a player `p` who is chosen by two
consecutive rolls is excluded from the pool the next roll draws from, and is
back in the pool of the roll after that, whatever that third roll does. The
theorem holds for every starting state, so in particular for every reachable
one. -/
theorem claim_C8 (players : List String) (s0 : TurnState) (p x y : String)
    (i1 i2 i3 : Nat) (r1 r2 r3 : RollResult) (s1 s2 s3 : TurnState)
    (hx : x ∈ players) (hy : y ∈ players) (hxy : x ≠ y)
    (h1 : roll_next_turn players s0 i1 = some (r1, s1)) (hp1 : r1.player = p)
    (h2 : roll_next_turn players s1 i2 = some (r2, s2)) (hp2 : r2.player = p)
    (h3 : roll_next_turn players s2 i3 = some (r3, s3)) :
    p ∉ roll_pool players s2.skip_next ∧ p ∈ roll_pool players s3.skip_next := by
  obtain ⟨hne, he1, hl1, hk1, hc1⟩ := roll_eqs players s0 i1 r1 s1 h1
  obtain ⟨-, he2, hl2, hk2, hc2⟩ := roll_eqs players s1 i2 r2 s2 h2
  obtain ⟨-, he3, hl3, hk3, hc3⟩ := roll_eqs players s2 i3 r3 s3 h3
  -- a second player distinct from p exists
  obtain ⟨z, hz, hzp⟩ : ∃ z, z ∈ players ∧ z ≠ p := by
    by_cases hxp : x = p
    · exact ⟨y, hy, fun h => hxy (h ▸ hxp)⟩
    · exact ⟨x, hx, hxp⟩
  have hpmem : p ∈ players := by
    rw [← hp1, he1]
    exact roll_pool_subset _ _ _ (getD_mod_mem _ i1 (roll_pool_ne_nil _ _ hne))
  -- the first roll cannot itself have scheduled a skip of p
  have hskip1 : s1.skip_next = none := by
    by_cases hcc : 2 ≤ (if some r1.player = s0.last_player
        then s0.consecutive_count + 1 else 1)
    · exfalso
      have hsk : s1.skip_next = some p := by rw [hk1, if_pos hcc, hp1]
      -- then the second roll drew from a pool without p, yet chose p
      have hmem2 : r2.player ∈ roll_pool players s1.skip_next := by
        rw [he2]
        exact getD_mod_mem _ i2 (roll_pool_ne_nil _ _ hne)
      rw [hsk, hp2] at hmem2
      exact not_mem_roll_pool_self players p z hz hzp hmem2
    · rw [hk1, if_neg hcc]
  -- the first roll left a consecutive count of exactly 1
  have hcnt1 : s1.consecutive_count = 1 := by
    rw [hc1]
    by_cases hcc : 2 ≤ (if some r1.player = s0.last_player
        then s0.consecutive_count + 1 else 1)
    · exfalso
      rw [hk1, if_pos hcc, hp1] at hskip1
      exact absurd hskip1 (by simp)
    · rw [if_neg hcc]
      by_cases hsame : some r1.player = s0.last_player
      · rw [if_pos hsame]; rw [if_pos hsame] at hcc; omega
      · rw [if_neg hsame]
  -- the second roll therefore reached a count of 2 and scheduled the skip
  have hskip2 : s2.skip_next = some p := by
    rw [hk2, hl1, hp1, hp2, hcnt1]
    simp
  constructor
  · rw [hskip2]
    exact not_mem_roll_pool_self players p z hz hzp
  · -- the third roll chose someone other than p, so p re-enters the pool
    have hmem3 : r3.player ∈ roll_pool players s2.skip_next := by
      rw [he3]
      exact getD_mod_mem _ i3 (roll_pool_ne_nil _ _ hne)
    have hr3p : r3.player ≠ p := by
      rw [hskip2] at hmem3
      intro hcon
      rw [hcon] at hmem3
      exact not_mem_roll_pool_self players p z hz hzp hmem3
    rcases hcase : s3.skip_next with _ | q
    · rw [roll_pool_none]; exact hpmem
    · have hq : q = r3.player := by
        rw [hk3] at hcase
        by_cases hcc : 2 ≤ (if some r3.player = s2.last_player
            then s2.consecutive_count + 1 else 1)
        · rw [if_pos hcc] at hcase; exact (Option.some_injective _ hcase).symm
        · rw [if_neg hcc] at hcase; exact absurd hcase (by simp)
      subst hq
      exact mem_roll_pool_some players r3.player p hpmem (fun h => hr3p h.symm)

theorem claim_C8_witness :
    "A" ∉ roll_pool ["A", "B"] (some "A") ∧ "A" ∈ roll_pool ["A", "B"] none :=
  claim_C8 ["A", "B"] ⟨none, 0, none⟩ "A" "A" "B" 0 0 0
    ⟨"A", none, false, ["A", "B"]⟩ ⟨"A", some "A", true, ["B"]⟩
    ⟨"B", none, false, ["A", "B"]⟩
    ⟨some "A", 1, none⟩ ⟨some "A", 0, some "A"⟩ ⟨some "B", 1, none⟩
    (by decide) (by decide) (by decide)
    (by decide) (by decide) (by decide) (by decide) (by decide)

end DiceTurn
